import Mathlib

/-!
Verification of the event-emitter client: the binary event codec
(protocol/event.go, protocol/uuid.go), the payload lexer and parser,
the event-collection loop (collectEvents), and the occurrence ranking
(findings.go).

Bytes are modelled as natural numbers below 256.  An io.Reader is modelled
as a list of byte chunks, one chunk per successful Read call (a bytes.Buffer
is a single chunk).  binary.Read uses io.ReadFull, which gathers bytes
across Read calls and distinguishes io.EOF (nothing read at all) from
io.ErrUnexpectedEOF (a strict prefix read); a direct r.Read call returns at
most one chunk.
-/

/-- A byte source: the chunks successive Read calls return.  Chunks are
nonempty by construction (a Read that returns zero bytes with a nil error
is not modelled; the readers in this program never produce one). -/
abbrev Chunks := List (List Nat)

/-- The chunk view of an in-memory buffer (bytes.Buffer over the bytes). -/
def buf (bs : List Nat) : Chunks := if bs = [] then [] else [bs]

/-- The error values io readers signal: io.EOF and io.ErrUnexpectedEOF. -/
inductive ByteErr where
  | eof
  | unexpectedEOF
deriving DecidableEq, Repr

/-- The bytes io.ReadFull gathers by looping over Read calls: it consumes
whole chunks until the request is satisfied, returning whatever was
available together with the rest of the source. -/
def readFullAux (k : Nat) : Chunks → List Nat × Chunks
  | [] => ([], [])
  | c :: rest =>
    if k ≤ c.length then
      (c.take k, if c.drop k = [] then rest else c.drop k :: rest)
    else
      let p := readFullAux (k - c.length) rest
      (c ++ p.1, p.2)

/-- io.ReadFull as used by binary.Read: either all k requested bytes, or
io.EOF when nothing was read, or io.ErrUnexpectedEOF after a strict
prefix was read. -/
def readFull (k : Nat) (r : Chunks) : Except ByteErr (List Nat × Chunks) :=
  let p := readFullAux k r
  if p.1.length = k then .ok p
  else if p.1 = [] then .error .eof
  else .error .unexpectedEOF

/-- A single r.Read call into a buffer of capacity k: returns at most the
front chunk (truncated to k bytes), io.EOF on an exhausted source, and
zero bytes without error when k = 0. -/
def readOnce (k : Nat) : Chunks → Except ByteErr (List Nat × Chunks)
  | [] => if k = 0 then .ok ([], []) else .error .eof
  | c :: rest => .ok (c.take k, if c.drop k = [] then rest else c.drop k :: rest)

/-- binary.BigEndian.AppendUintN: the w big-endian bytes of v. -/
def beBytes : Nat → Nat → List Nat
  | 0, _ => []
  | w + 1, v => beBytes w (v / 256) ++ [v % 256]

/-- binary.BigEndian.UintN: the value of a big-endian byte string. -/
def beNat (bs : List Nat) : Nat := bs.foldl (fun a b => a * 256 + b) 0

theorem beNat_append (xs : List Nat) (b : Nat) :
    beNat (xs ++ [b]) = beNat xs * 256 + b := by
  simp [beNat, List.foldl_append]

theorem beBytes_length (w v : Nat) : (beBytes w v).length = w := by
  induction w generalizing v with
  | zero => simp [beBytes]
  | succ w ih => simp [beBytes, ih]

theorem beBytes_lt (w v : Nat) : ∀ b ∈ beBytes w v, b < 256 := by
  induction w generalizing v with
  | zero => simp [beBytes]
  | succ w ih =>
    intro b hb
    rw [beBytes] at hb
    rcases List.mem_append.mp hb with h | h
    · exact ih _ b h
    · simp at h; omega

theorem beNat_beBytes (w v : Nat) (h : v < 256 ^ w) :
    beNat (beBytes w v) = v := by
  induction w generalizing v with
  | zero =>
    interval_cases v
    simp [beBytes, beNat]
  | succ w ih =>
    rw [beBytes, beNat_append, ih (v / 256) (by
      rw [Nat.div_lt_iff_lt_mul (by norm_num)]
      calc v < 256 ^ (w + 1) := h
        _ = 256 ^ w * 256 := by ring)]
    omega

theorem readFull_append (k : Nat) (a b : List Nat) (ha : a.length = k)
    (hb : b ≠ []) : readFull k [a ++ b] = .ok (a, [b]) := by
  have h1 : k ≤ (a ++ b).length := by simp [List.length_append]; omega
  have h2 : (a ++ b).take k = a := by
    rw [← ha]; exact List.take_left a b
  have h3 : (a ++ b).drop k = b := by
    rw [← ha]; exact List.drop_left a b
  simp [readFull, readFullAux, h1, h2, h3, hb, ha]

theorem readFull_exact (k : Nat) (a : List Nat) (ha : a.length = k) :
    readFull k [a] = .ok (a, []) := by
  have h1 : k ≤ a.length := by omega
  have h2 : a.take k = a := List.take_of_length_le (by omega)
  have h3 : a.drop k = [] := List.drop_eq_nil_of_le (by omega)
  simp [readFull, readFullAux, h1, h2, h3, ha]

theorem readFull_nil (k : Nat) (hk : k ≠ 0) :
    readFull k [] = .error .eof := by
  simp [readFull, readFullAux]
  omega

theorem readFull_short (k : Nat) (c : List Nat) (hc : c ≠ [])
    (hlt : c.length < k) : readFull k [c] = .error .unexpectedEOF := by
  have h1 : ¬ k ≤ c.length := by omega
  simp [readFull, readFullAux, h1, hc]
  omega

theorem readOnce_append (k : Nat) (a b : List Nat) (ha : a.length = k)
    (hb : b ≠ []) : readOnce k [a ++ b] = .ok (a, [b]) := by
  have h2 : (a ++ b).take k = a := by rw [← ha]; exact List.take_left a b
  have h3 : (a ++ b).drop k = b := by rw [← ha]; exact List.drop_left a b
  simp [readOnce, h2, h3, hb]

theorem readOnce_exact (k : Nat) (a : List Nat) (ha : a.length = k) :
    readOnce k [a] = .ok (a, []) := by
  have h2 : a.take k = a := List.take_of_length_le (by omega)
  have h3 : a.drop k = [] := List.drop_eq_nil_of_le (by omega)
  simp [readOnce, h2, h3]

theorem readOnce_nil (k : Nat) (hk : k ≠ 0) :
    readOnce k [] = .error .eof := by
  simp [readOnce, hk]

theorem readOnce_under (k : Nat) (c : List Nat)
    (hlt : c.length < k) : readOnce k [c] = .ok (c, []) := by
  have h2 : c.take k = c := List.take_of_length_le (by omega)
  have h3 : c.drop k = [] := List.drop_eq_nil_of_le (by omega)
  simp [readOnce, h2, h3]

/-! ### Payload lexer (the Rob Pike style state machine of the protocol
package) and parsePayloadRaw.

The Go lexer scans runes but compares them only against the one-byte ASCII
separators ":" and ",", whose bytes never occur inside a multi-byte UTF-8
sequence, so character-wise scanning produces the same token spans.  The
input string is modelled as its list of characters. -/

inductive tokenType where
  | tokenEOF
  | tokenKey
  | tokenValue
deriving DecidableEq, Repr

structure token where
  typ : tokenType
  pos : Nat
  val : List Char
deriving DecidableEq, Repr

/-- The lexer state: input, token start, current position, and the width of
the last consumed character. -/
structure lexer where
  input : List Char
  start : Nat
  pos : Nat
  width : Nat
deriving DecidableEq, Repr

/-- lexer.acceptUntil: the next/backup loop consumes exactly the longest
prefix of input[pos:] free of c.  It stops on a hit with width 1 and pos on
the separator (next then backup), and stops at end of input with width 0;
when pos starts beyond the input nothing is consumed and width is 0. -/
def acceptUntil (l : lexer) (c : Char) : lexer :=
  let j := ((l.input.drop l.pos).takeWhile (fun x => x != c)).length
  { l with pos := l.pos + j, width := if l.pos + j < l.input.length then 1 else 0 }

/-- lexer.acceptUntilEOF: the next loop consumes everything up to end of
input; the final next at end of input sets width to 0 (no backup). -/
def acceptUntilEOF (l : lexer) : lexer :=
  { l with pos := max l.pos l.input.length, width := 0 }

/-- lexer.emit: the emitted token (typ, pos, input[start:pos]) and the lexer
with start advanced to pos. -/
def emit (t : tokenType) (l : lexer) : token × lexer :=
  (⟨t, l.pos, (l.input.drop l.start).take (l.pos - l.start)⟩, { l with start := l.pos })

/-- strings.Index for a one-character separator: the index of the first
occurrence, none when absent. -/
def idxOf? (c : Char) : List Char → Option Nat
  | [] => none
  | x :: xs => if x = c then some 0 else (idxOf? c xs).map (· + 1)

/-- lexer.index: strings.Index(l.input[l.pos:], c) for a one-character
separator.  The slice l.input[l.pos:] panics (Go runtime error) when pos
exceeds the input length; the panic is modelled as .error pos. -/
def lexIndex (l : lexer) (c : Char) : Except Nat (Option Nat) :=
  if l.pos ≤ l.input.length then .ok (idxOf? c (l.input.drop l.pos))
  else .error l.pos

/-- lexer.first: of the given characters, the one whose first occurrence at
or after pos comes earliest (none when none of them occurs).  It is only
reached after a successful lexer.index, so its own slices are in range. -/
def lexFirst (l : lexer) (chars : List Char) : Option Char :=
  (chars.foldl
    (fun acc c =>
      match idxOf? c (l.input.drop l.pos) with
      | some i =>
        match acc with
        | none => some (i, c)
        | some fi => if i < fi.1 then some (i, c) else acc
      | none => acc)
    none).map Prod.snd

/-- Outcome of the lexValue state: a Go runtime panic, the end of the state
machine (tokens emitted, possibly including tokenEOF), or a hand-over to
lexPairSeparator. -/
inductive valueOut where
  | panicked (pos : Nat)
  | stop (toks : List token) (l : lexer)
  | more (toks : List token) (l : lexer)
deriving Repr

/-- lexValue: the value extends to the first "," exactly when a later ":"
exists and the first occurrence among "," and ":" is ","; otherwise it
runs to end of input.  Emits the value token, then either emits tokenEOF
and stops, or continues with lexPairSeparator. -/
def lexValue (l : lexer) : valueOut :=
  match lexIndex l ':' with
  | .error p => .panicked p
  | .ok colonIdx =>
    if colonIdx.isSome && (lexFirst l [',', ':'] == some ',') then
      let l1 := acceptUntil l ','
      let p1 := emit tokenType.tokenValue l1
      if p1.2.pos ≥ p1.2.input.length then
        let p2 := emit tokenType.tokenEOF p1.2
        .stop [p1.1, p2.1] p2.2
      else
        .more [p1.1] p1.2
    else
      let l1 := acceptUntilEOF l
      let p1 := emit tokenType.tokenValue l1
      if p1.2.pos ≥ p1.2.input.length then
        let p2 := emit tokenType.tokenEOF p1.2
        .stop [p1.1, p2.1] p2.2
      else
        .stop [p1.1] p1.2

/-- lexer.run from the lexKey state, with fuel bounding the number of
key:value rounds (each round: lexKey, lexSeparator, lexValue, and possibly
lexPairSeparator).  .error p models the Go runtime panic from slicing
input[pos:] with pos out of range. -/
def lexRun : Nat → lexer → List token → Except Nat (List token)
  | 0, l, _ => .error l.pos
  | fuel + 1, l, acc =>
    let l1 := acceptUntil l ':'
    let pk := emit tokenType.tokenKey l1
    let l3 : lexer := { pk.2 with pos := pk.2.pos + 1, start := pk.2.pos + 1 }
    match lexValue l3 with
    | .panicked p => .error p
    | .stop toks _ => .ok (acc ++ (pk.1 :: toks))
    | .more toks l4 =>
      lexRun fuel { l4 with pos := l4.pos + 1, start := l4.pos + 1 } (acc ++ (pk.1 :: toks))

/-- lex(input): the token stream of the whole run (or the position of the
panic).  input.length + 1 rounds of fuel always suffice, because every
round after the first starts strictly beyond the "," consumed by the
previous one. -/
def lex (input : List Char) : Except Nat (List token) :=
  lexRun (input.length + 1) ⟨input, 0, 0, 0⟩ []

/-- Go map assignment m[key] = val: last write wins. -/
def payloadInsert (m : List (List Char × List Char)) (k v : List Char) :
    List (List Char × List Char) :=
  match m with
  | [] => [(k, v)]
  | (k0, v0) :: rest =>
    if k0 = k then (k0, v) :: rest else (k0, v0) :: payloadInsert rest k v

/-- The token-consumption loop of parsePayloadRaw: a key token sets the
pending key, a value token stores pending key → value, tokenEOF stops. -/
def parseTokens (m : List (List Char × List Char)) (key : List Char) :
    List token → List (List Char × List Char)
  | [] => m
  | t :: ts =>
    match t.typ with
    | .tokenEOF => m
    | .tokenKey => parseTokens m t.val ts
    | .tokenValue => parseTokens (payloadInsert m key t.val) key ts

/-- parsePayloadRaw on the raw payload bytes: lexes string(bytes) and folds
the tokens into the payload map.  A lexer panic is an unrecovered panic in
the lexing goroutine and kills the whole process (.error). -/
def parsePayload (bs : List Nat) : Except Nat (List (List Char × List Char)) :=
  match lex (bs.map Char.ofNat) with
  | .error p => .error p
  | .ok toks => .ok (parseTokens [] [] toks)

instance {ε α : Type} [DecidableEq ε] [DecidableEq α] : DecidableEq (Except ε α) := fun x y =>
  match x, y with
  | .ok a, .ok b => if h : a = b then isTrue (by rw [h]) else isFalse (by simp [h])
  | .error a, .error b => if h : a = b then isTrue (by rw [h]) else isFalse (by simp [h])
  | .ok _, .error _ => isFalse (by simp)
  | .error _, .ok _ => isFalse (by simp)

/-! ### The binary event codec (protocol/event.go, protocol/uuid.go).

Field-labeled decode errors carry the wrapping label of the fmt.Errorf
call; UUID errors are additionally wrapped with the "reading UUID" label
by Event.ReadFrom. -/

inductive DecodeErr where
  | field (label : String) (e : ByteErr)
  | short (label : String) (got expected : Nat)
  | wrap (label : String) (e : DecodeErr)
deriving DecidableEq, Repr

structure UUID where
  TimeLow : Nat
  TimeMid : Nat
  TimeHiAndVersion : Nat
  ClockSeqHiAndRes : Nat
  ClockSeqLow : Nat
  Node : List Nat
deriving DecidableEq, Repr

/-- The outcome of UUID.ReadFrom: the (possibly partly updated) receiver,
the byte count n, the rest of the source, and the error if any. -/
structure UUIDRead where
  u : UUID
  n : Nat
  rest : Chunks
  err : Option DecodeErr
deriving DecidableEq, Repr

/-- UUID.ReadFrom: five big-endian fixed-width reads (binary.Read), then a
single r.Read call for the 6-byte Node, which distinguishes a short read
("read i of 6 bytes") from an absent one (io.EOF); a short Node read has
written the bytes it got into the front of the array. -/
def UUID.readFrom (u : UUID) (r : Chunks) : UUIDRead :=
  match readFull 4 r with
  | .error be => ⟨u, 0, r, some (.field "time low" be)⟩
  | .ok p1 =>
  let u1 := { u with TimeLow := beNat p1.1 }
  match readFull 2 p1.2 with
  | .error be => ⟨u1, 4, p1.2, some (.field "time mid" be)⟩
  | .ok p2 =>
  let u2 := { u1 with TimeMid := beNat p2.1 }
  match readFull 2 p2.2 with
  | .error be => ⟨u2, 6, p2.2, some (.field "time hi and version" be)⟩
  | .ok p3 =>
  let u3 := { u2 with TimeHiAndVersion := beNat p3.1 }
  match readFull 1 p3.2 with
  | .error be => ⟨u3, 8, p3.2, some (.field "clock seq hi and res" be)⟩
  | .ok p4 =>
  let u4 := { u3 with ClockSeqHiAndRes := beNat p4.1 }
  match readFull 1 p4.2 with
  | .error be => ⟨u4, 9, p4.2, some (.field "clock seq low" be)⟩
  | .ok p5 =>
  let u5 := { u4 with ClockSeqLow := beNat p5.1 }
  match readOnce 6 p5.2 with
  | .error be => ⟨u5, 10, p5.2, some (.field "node" be)⟩
  | .ok p6 =>
    if p6.1.length = 6 then
      ⟨{ u5 with Node := p6.1 }, 16, p6.2, none⟩
    else
      ⟨{ u5 with Node := p6.1 ++ u5.Node.drop p6.1.length }, 10, p6.2,
        some (.short "node" p6.1.length 6)⟩

/-- The Event record.  Fields are declared in the order the wire frame and
the spec data model list them (node_id, timestamp, payload_size, uuid,
payload_bytes, decoded_payload, protocol, submitter plus its derived IP,
checksum); the Go struct keeps the two derived fields at the end but
decodes in exactly this order. -/
structure Event where
  NodeID : Nat
  TimeStamp : Nat
  Size : Nat
  EventUUID : UUID
  PayloadBytes : List Nat
  Payload : List (List Char × List Char)
  Protocol : Nat
  Submitter : Nat
  IP : Option (List Nat)
  CheckSum : Nat
deriving DecidableEq, Repr

/-- The outcome of Event.ReadFrom: the (possibly partly updated) receiver,
the byte count n, the rest of the source, and the error if any. -/
structure EventRead where
  ev : Event
  n : Nat
  rest : Chunks
  err : Option DecodeErr
deriving DecidableEq, Repr

/-- A fresh (zero-valued) Event: zero integers, a zero UUID, nil slices and
map, and the invalid zero netip.Addr. -/
def Event.fresh : Event :=
  ⟨0, 0, 0, ⟨0, 0, 0, 0, 0, List.replicate 6 0⟩, [], [], 0, 0, none, 0⟩

/-- Event.ReadFrom: field-by-field decode in wire order.  The payload is
obtained by one r.Read call into a zeroed buffer of Size bytes (a short
read reports "read j of Size bytes" and leaves the tail of the buffer
zeroed); immediately after a full payload read, parsePayloadRaw populates
Payload — if the payload contains no ":" the lexing goroutine panics and
the process dies, modelled as none. -/
def Event.readFrom (e : Event) (r : Chunks) : Option EventRead :=
  match readFull 2 r with
  | .error be => some ⟨e, 0, r, some (.field "node ID" be)⟩
  | .ok p1 =>
  let e1 := { e with NodeID := beNat p1.1 }
  match readFull 4 p1.2 with
  | .error be => some ⟨e1, 2, p1.2, some (.field "time stamp" be)⟩
  | .ok p2 =>
  let e2 := { e1 with TimeStamp := beNat p2.1 }
  match readFull 2 p2.2 with
  | .error be => some ⟨e2, 6, p2.2, some (.field "size" be)⟩
  | .ok p3 =>
  let e3 := { e2 with Size := beNat p3.1 }
  let ur := UUID.readFrom e3.EventUUID p3.2
  let e4 := { e3 with EventUUID := ur.u }
  match ur.err with
  | some de => some ⟨e4, 8, ur.rest, some (.wrap "UUID" de)⟩
  | none =>
  match readOnce e4.Size ur.rest with
  | .error be =>
    some ⟨{ e4 with PayloadBytes := List.replicate e4.Size 0 }, 8 + ur.n, ur.rest,
      some (.field "payload" be)⟩
  | .ok p5 =>
  if p5.1.length = e4.Size then
    let e5 := { e4 with PayloadBytes := p5.1 }
    match parsePayload e5.PayloadBytes with
    | .error _ => none
    | .ok m =>
    let e6 := { e5 with Payload := m }
    match readFull 2 p5.2 with
    | .error be => some ⟨e6, 8 + ur.n + p5.1.length, p5.2, some (.field "protocol" be)⟩
    | .ok p6 =>
    let e7 := { e6 with Protocol := beNat p6.1 }
    match readFull 4 p6.2 with
    | .error be => some ⟨e7, 8 + ur.n + p5.1.length + 2, p6.2, some (.field "submitter" be)⟩
    | .ok p7 =>
    let e8 := { e7 with Submitter := beNat p7.1 }
    let e9 := { e8 with IP := some (beBytes 4 e8.Submitter) }
    match readFull 4 p7.2 with
    | .error be => some ⟨e9, 8 + ur.n + p5.1.length + 6, p7.2, some (.field "checksum" be)⟩
    | .ok p8 =>
    some ⟨{ e9 with CheckSum := beNat p8.1 }, 8 + ur.n + p5.1.length + 10, p8.2, none⟩
  else
    some ⟨{ e4 with PayloadBytes := p5.1 ++ List.replicate (e4.Size - p5.1.length) 0 },
      8 + ur.n, p5.2, some (.short "payload" p5.1.length e4.Size)⟩

/-- UUID.marshalBinary: big-endian fields, the two clock-seq bytes, then
the raw Node bytes. -/
def UUID.marshalBinary (u : UUID) : List Nat :=
  beBytes 4 u.TimeLow ++ beBytes 2 u.TimeMid ++ beBytes 2 u.TimeHiAndVersion ++
    [u.ClockSeqHiAndRes, u.ClockSeqLow] ++ u.Node

/-- Event.marshalBinary: every field except CheckSum, in wire order. -/
def Event.marshalBinary (e : Event) : List Nat :=
  beBytes 2 e.NodeID ++ beBytes 4 e.TimeStamp ++ beBytes 2 e.Size ++
    e.EventUUID.marshalBinary ++ e.PayloadBytes ++ beBytes 2 e.Protocol ++
    beBytes 4 e.Submitter

/-- Event.MarshalBinary: the whole frame, CheckSum appended last. -/
def Event.MarshalBin (e : Event) : List Nat :=
  e.marshalBinary ++ beBytes 4 e.CheckSum

/-- One bit step of the reflected CRC-32 division (IEEE polynomial
0xEDB88320), iterated k times. -/
def crc32Shift : Nat → Nat → Nat
  | 0, c => c
  | k + 1, c => crc32Shift k (if c % 2 = 1 then (c / 2) ^^^ 0xEDB88320 else c / 2)

/-- Absorb one byte into the running CRC-32. -/
def crc32Update (c b : Nat) : Nat := crc32Shift 8 (c ^^^ b)

/-- crc32.Checksum(bs, crc32.IEEETable): init 0xFFFFFFFF, reflected
polynomial division per byte, final xor 0xFFFFFFFF. -/
def crc32 (bs : List Nat) : Nat := (bs.foldl crc32Update 0xFFFFFFFF) ^^^ 0xFFFFFFFF

/-- Event.Valid: the stored CheckSum equals the IEEE CRC-32 of the encoding
of every other field.  A total boolean: it never fails. -/
def Event.Valid (e : Event) : Bool := crc32 e.marshalBinary == e.CheckSum

/-- Well-formed machine values: each field fits its Go integer type, Node
is 6 bytes, and PayloadBytes holds Size bytes. -/
def UUID.WF (u : UUID) : Prop :=
  u.TimeLow < 2 ^ 32 ∧ u.TimeMid < 2 ^ 16 ∧ u.TimeHiAndVersion < 2 ^ 16 ∧
  u.ClockSeqHiAndRes < 256 ∧ u.ClockSeqLow < 256 ∧ u.Node.length = 6 ∧
  ∀ b ∈ u.Node, b < 256

def Event.WF (e : Event) : Prop :=
  e.NodeID < 2 ^ 16 ∧ e.TimeStamp < 2 ^ 32 ∧ e.Size < 2 ^ 16 ∧ e.EventUUID.WF ∧
  e.PayloadBytes.length = e.Size ∧ (∀ b ∈ e.PayloadBytes, b < 256) ∧
  e.Protocol < 2 ^ 16 ∧ e.Submitter < 2 ^ 32 ∧ e.CheckSum < 2 ^ 32

/-- The derived fields hold the values decode derives: Payload is the
parse of PayloadBytes (in particular that parse terminates) and IP is the
4-octet view of Submitter. -/
def Event.Derivable (e : Event) : Prop :=
  parsePayload e.PayloadBytes = .ok e.Payload ∧ e.IP = some (beBytes 4 e.Submitter)

instance (u : UUID) : Decidable u.WF := by unfold UUID.WF; infer_instance
instance (e : Event) : Decidable e.WF := by unfold Event.WF; infer_instance
instance (e : Event) : Decidable e.Derivable := by unfold Event.Derivable; infer_instance

/-! ### The event-collection loop (collectEvents, main package). -/

/-- What one iteration's select observes: context cancellation, the closed
datagram channel, or the next queued datagram. -/
inductive Pull where
  | cancelled
  | closed
  | datagram (r : Chunks)

inductive CollectErr where
  | noDatagrams
  | handshake
  | decode (e : DecodeErr)
deriving DecidableEq, Repr

/-- The consumer loop of collectEvents: i is the 1-based iteration index,
rem the iterations left (datagrams - i + 1).  Cancellation or a closed
channel breaks out with the events collected so far; a decode error aborts
the pipeline with it; an invalid event is discarded (still consuming the
iteration); a valid one is appended.  none models the process dying in the
payload lexer during decode. -/
def collectLoop (pulls : Nat → Pull) :
    Nat → Nat → List Event → Option (Except CollectErr (List Event))
  | _, 0, evs => some (.ok evs)
  | i, rem + 1, evs =>
    match pulls i with
    | .cancelled => some (.ok evs)
    | .closed => some (.ok evs)
    | .datagram r =>
      match Event.readFrom Event.fresh r with
      | none => none
      | some res =>
        match res.err with
        | some de => some (.error (.decode de))
        | none =>
          if res.ev.Valid then collectLoop pulls (i + 1) rem (evs ++ [res.ev])
          else collectLoop pulls (i + 1) rem evs

/-- collectEvents: rejects a request for fewer than one datagram, clamps
the configured datagram size into [512, 65535] (first matching switch case
only, as in Go) and the cache to at least 1 MB, writes the one-time
handshake (a failed write is fatal), and runs the consumer loop.  The
reader task and the bounded queue are abstracted into the pull sequence
the loop's select observes; the clamped size and cache only size the
queue, which the pull sequence already fixes. -/
def collectEvents (datagrams size cache : Int) (handshakeOk : Bool)
    (pulls : Nat → Pull) : Option (Except CollectErr (List Event)) :=
  if datagrams < 1 then some (.error .noDatagrams)
  else
    let _size : Int := if size < 512 then 512 else if size > 65535 then 65535 else size
    let _cache : Int := if cache < 1 then 1 else cache
    if handshakeOk = false then some (.error .handshake)
    else collectLoop pulls 1 datagrams.toNat []

/-! ### Occurrence ranking (findings.go). -/

/-- itemOccurrence.  (The Events drill-down list is never consulted by
Less or top, and placeholders leave it empty; it is omitted here.) -/
structure itemOccurrence where
  Item : String
  Occurrence : Nat
deriving DecidableEq, Repr

/-- Go's string comparison: byte-lexicographic, which on UTF-8 strings is
the same order as character-lexicographic. -/
def strLtb : List Char → List Char → Bool
  | _, [] => false
  | [], _ :: _ => true
  | a :: as, b :: bs => if a < b then true else if b < a then false else strLtb as bs

/-- itemOccurrences.Less: reverse sort by occurrence; equal occurrences
sort ascending by item. -/
def itemLess (a b : itemOccurrence) : Bool :=
  if a.Occurrence = b.Occurrence then strLtb a.Item.data b.Item.data
  else decide (a.Occurrence > b.Occurrence)

/-- sort.Sort on itemOccurrences: on entries with pairwise distinct items
Less is a strict total order, so every sorting algorithm produces the one
Less-sorted permutation; modelled as insertion sort over the same Less. -/
def itemInsert (x : itemOccurrence) : List itemOccurrence → List itemOccurrence
  | [] => [x]
  | y :: ys => if itemLess x y then x :: y :: ys else y :: itemInsert x ys

def itemSort : List itemOccurrence → List itemOccurrence
  | [] => []
  | x :: xs => itemInsert x (itemSort xs)

/-- itemOccurrenceMap.top: the map's entries (any iteration order) sorted,
padded with empty placeholders up to count when fewer exist, then cut to
exactly count. -/
def top (entries : List itemOccurrence) (count : Nat) : List itemOccurrence :=
  let items := itemSort entries
  let items :=
    if items.length < count then
      items ++ List.replicate (count - items.length) ⟨"", 0⟩
    else items
  items.take count

theorem app_ne_nil {α : Type} (a b : List α) (h : b ≠ []) : a ++ b ≠ [] := by
  simp [h]

theorem beNat_single (b : Nat) : beNat [b] = b := by simp [beNat]

theorem lt16 {v : Nat} (h : v < 2 ^ 16) : v < 256 ^ 2 := by norm_num at *; omega

theorem lt32 {v : Nat} (h : v < 2 ^ 32) : v < 256 ^ 4 := by norm_num at *; omega

theorem uuid_readFrom_marshal (u0 u : UUID) (hw : u.WF) (R : List Nat) (hR : R ≠ []) :
    UUID.readFrom u0 [u.marshalBinary ++ R] = ⟨u, 16, [R], none⟩ := by
  obtain ⟨h1, h2, h3, h4, h5, h6, h7⟩ := hw
  have e1 : u.marshalBinary ++ R =
      beBytes 4 u.TimeLow ++ (beBytes 2 u.TimeMid ++ (beBytes 2 u.TimeHiAndVersion ++
        ([u.ClockSeqHiAndRes] ++ ([u.ClockSeqLow] ++ (u.Node ++ R))))) := by
    simp [UUID.marshalBinary, List.append_assoc]
  have n5 : u.Node ++ R ≠ [] := app_ne_nil _ _ hR
  have n4 : [u.ClockSeqLow] ++ (u.Node ++ R) ≠ [] := app_ne_nil _ _ n5
  have n3 : [u.ClockSeqHiAndRes] ++ ([u.ClockSeqLow] ++ (u.Node ++ R)) ≠ [] := app_ne_nil _ _ n4
  have n2 : beBytes 2 u.TimeHiAndVersion ++ ([u.ClockSeqHiAndRes] ++ ([u.ClockSeqLow] ++ (u.Node ++ R))) ≠ [] := app_ne_nil _ _ n3
  have n1 : beBytes 2 u.TimeMid ++ (beBytes 2 u.TimeHiAndVersion ++ ([u.ClockSeqHiAndRes] ++ ([u.ClockSeqLow] ++ (u.Node ++ R)))) ≠ [] := app_ne_nil _ _ n2
  rw [UUID.readFrom, e1, readFull_append 4 _ _ (beBytes_length 4 u.TimeLow) n1]
  dsimp only
  rw [readFull_append 2 _ _ (beBytes_length 2 u.TimeMid) n2]
  dsimp only
  rw [readFull_append 2 _ _ (beBytes_length 2 u.TimeHiAndVersion) n3]
  dsimp only
  rw [readFull_append 1 _ _ (by simp) n4]
  dsimp only
  rw [readFull_append 1 _ _ (by simp) n5]
  dsimp only
  rw [readOnce_append 6 _ _ h6 hR]
  simp [beNat_beBytes 4 u.TimeLow (lt32 h1), beNat_beBytes 2 u.TimeMid (lt16 h2),
    beNat_beBytes 2 u.TimeHiAndVersion (lt16 h3), beNat_single, h6]

theorem beBytes_ne_nil (w v : Nat) (h : w ≠ 0) : beBytes w v ≠ [] := by
  intro hh
  have := beBytes_length w v
  rw [hh] at this
  simp at this
  omega

theorem buf_of_ne (bs : List Nat) (h : bs ≠ []) : buf bs = [bs] := by
  simp [buf, h]

theorem event_readFrom_marshal (e : Event) (hw : e.WF) (hd : e.Derivable) :
    Event.readFrom Event.fresh (buf e.MarshalBin) = some ⟨e, 34 + e.Size, [], none⟩ := by
  obtain ⟨w1, w2, w3, w4, w5, w6, w7, w8, w9⟩ := hw
  obtain ⟨u1, u2, u3, u4, u5, u6, u7⟩ := id w4
  obtain ⟨d1, d2⟩ := hd
  have ne8 : beBytes 4 e.CheckSum ≠ [] := beBytes_ne_nil 4 e.CheckSum (by omega)
  have n7 : beBytes 4 e.Submitter ++ beBytes 4 e.CheckSum ≠ [] := app_ne_nil _ _ ne8
  have n6 : beBytes 2 e.Protocol ++ (beBytes 4 e.Submitter ++ beBytes 4 e.CheckSum) ≠ [] :=
    app_ne_nil _ _ n7
  have n5 : e.PayloadBytes ++ (beBytes 2 e.Protocol ++ (beBytes 4 e.Submitter ++ beBytes 4 e.CheckSum)) ≠ [] :=
    app_ne_nil _ _ n6
  have n4 : e.EventUUID.marshalBinary ++ (e.PayloadBytes ++ (beBytes 2 e.Protocol ++ (beBytes 4 e.Submitter ++ beBytes 4 e.CheckSum))) ≠ [] :=
    app_ne_nil _ _ n5
  have n3 : beBytes 2 e.Size ++ (e.EventUUID.marshalBinary ++ (e.PayloadBytes ++ (beBytes 2 e.Protocol ++ (beBytes 4 e.Submitter ++ beBytes 4 e.CheckSum)))) ≠ [] :=
    app_ne_nil _ _ n4
  have n2 : beBytes 4 e.TimeStamp ++ (beBytes 2 e.Size ++ (e.EventUUID.marshalBinary ++ (e.PayloadBytes ++ (beBytes 2 e.Protocol ++ (beBytes 4 e.Submitter ++ beBytes 4 e.CheckSum))))) ≠ [] :=
    app_ne_nil _ _ n3
  have hfne : e.MarshalBin ≠ [] := by
    rw [Event.MarshalBin]
    exact app_ne_nil _ _ ne8
  have e1 : e.MarshalBin =
      beBytes 2 e.NodeID ++ (beBytes 4 e.TimeStamp ++ (beBytes 2 e.Size ++
        (e.EventUUID.marshalBinary ++ (e.PayloadBytes ++ (beBytes 2 e.Protocol ++
          (beBytes 4 e.Submitter ++ beBytes 4 e.CheckSum)))))) := by
    simp [Event.MarshalBin, Event.marshalBinary, List.append_assoc]
  have hsz : e.PayloadBytes.length = beNat (beBytes 2 e.Size) := by
    rw [beNat_beBytes 2 e.Size (lt16 w3)]; exact w5
  rw [buf_of_ne _ hfne, e1, Event.readFrom,
    readFull_append 2 _ _ (beBytes_length 2 e.NodeID) n2]
  dsimp only
  rw [readFull_append 4 _ _ (beBytes_length 4 e.TimeStamp) n3]
  dsimp only
  rw [readFull_append 2 _ _ (beBytes_length 2 e.Size) n4]
  dsimp only
  rw [uuid_readFrom_marshal _ e.EventUUID ⟨u1, u2, u3, u4, u5, u6, u7⟩ _ n5]
  dsimp only
  rw [readOnce_append _ _ _ hsz n6]
  dsimp only
  rw [if_pos hsz, d1]
  dsimp only
  rw [readFull_append 2 _ _ (beBytes_length 2 e.Protocol) n7]
  dsimp only
  rw [readFull_append 4 _ _ (beBytes_length 4 e.Submitter) ne8]
  dsimp only
  rw [readFull_exact 4 _ (beBytes_length 4 e.CheckSum)]
  simp [beNat_beBytes 2 e.NodeID (lt16 w1), beNat_beBytes 4 e.TimeStamp (lt32 w2),
    beNat_beBytes 2 e.Size (lt16 w3), beNat_beBytes 2 e.Protocol (lt16 w7),
    beNat_beBytes 4 e.Submitter (lt32 w8), beNat_beBytes 4 e.CheckSum (lt32 w9),
    w5]
  refine ⟨?_, by omega⟩
  rw [← d2]

/-- C1: for every valid Event e (well-formed machine values, with Payload
and IP derivable from PayloadBytes and Submitter), decoding the byte
sequence MarshalBinary(e) produces into a fresh Event succeeds, consumes
exactly its length, and reproduces every field of e, the re-derived
Payload map and submitter-derived IP included. -/
theorem C1_round_trip (e : Event) (hw : e.WF) (hd : e.Derivable) :
    Event.readFrom Event.fresh (buf e.MarshalBin) =
      some ⟨e, e.MarshalBin.length, [], none⟩ := by
  have hlen : e.MarshalBin.length = 34 + e.Size := by
    obtain ⟨w1, w2, w3, w4, w5, w6, w7, w8, w9⟩ := hw
    obtain ⟨u1, u2, u3, u4, u5, u6, u7⟩ := w4
    simp [Event.MarshalBin, Event.marshalBinary, UUID.marshalBinary, beBytes_length, u6, w5]
    omega
  rw [hlen]
  exact event_readFrom_marshal e hw hd

def witEvent : Event :=
  { NodeID := 1, TimeStamp := 2, Size := 3,
    EventUUID := ⟨1, 2, 3, 4, 5, [6, 7, 8, 9, 10, 11]⟩,
    PayloadBytes := [97, 58, 98], Payload := [(['a'], ['b'])],
    Protocol := 0x31, Submitter := 0x01020304, IP := some [1, 2, 3, 4],
    CheckSum := 7 }

theorem C1_round_trip_witness :
    witEvent.WF ∧ witEvent.Derivable ∧
      Event.readFrom Event.fresh (buf witEvent.MarshalBin) =
        some ⟨witEvent, witEvent.MarshalBin.length, [], none⟩ :=
  ⟨by decide, by decide, C1_round_trip witEvent (by decide) (by decide)⟩

/-- C3: Valid() is true iff the stored CheckSum equals the CRC-32/IEEE
checksum over the concatenated big-endian encoding of every other field
(node_id, timestamp, size, uuid, payload bytes, protocol, submitter); it
is a total boolean, so it never fails; replacing the CheckSum of a valid
event by any different value — in particular flipping any single bit of
it — makes Valid false; and an event freshly decoded from a validly
checksummed frame is Valid. -/
theorem C3_valid_checksum (e : Event) :
    (e.Valid = true ↔ crc32 e.marshalBinary = e.CheckSum) ∧
    (∀ c : Nat, e.Valid = true → c ≠ e.CheckSum →
      Event.Valid { e with CheckSum := c } = false) ∧
    (∀ i : Nat, i < 32 → e.Valid = true →
      Event.Valid { e with CheckSum := e.CheckSum ^^^ 2 ^ i } = false) ∧
    (e.WF → e.Derivable → e.CheckSum = crc32 e.marshalBinary →
      ∃ res, Event.readFrom Event.fresh (buf e.MarshalBin) = some res ∧
        res.ev.Valid = true) := by
  have hm : ∀ c : Nat, Event.marshalBinary { e with CheckSum := c } = e.marshalBinary :=
    fun _ => rfl
  refine ⟨by simp [Event.Valid], ?_, ?_, ?_⟩
  · intro c hv hc
    have h1 : crc32 e.marshalBinary = e.CheckSum := by simpa [Event.Valid] using hv
    simp [Event.Valid, hm, h1]
    omega
  · intro i _ hv
    have h1 : crc32 e.marshalBinary = e.CheckSum := by simpa [Event.Valid] using hv
    have h2 : e.CheckSum ^^^ 2 ^ i ≠ e.CheckSum := by
      intro hq
      have h4 := congrArg (fun x => e.CheckSum ^^^ x) hq
      simp only [← Nat.xor_assoc, Nat.xor_self, Nat.zero_xor] at h4
      have h5 : 0 < (2 : Nat) ^ i := Nat.two_pow_pos i
      omega
    simp [Event.Valid, hm, h1]
    exact fun hq => h2 hq.symm
  · intro hw hd hcs
    exact ⟨⟨e, 34 + e.Size, [], none⟩, event_readFrom_marshal e hw hd,
      by simp [Event.Valid, hcs]⟩

def witEventC : Event := { witEvent with CheckSum := crc32 witEvent.marshalBinary }

set_option maxRecDepth 20000 in
theorem C3_valid_checksum_witness :
    Event.Valid { witEventC with CheckSum := witEventC.CheckSum ^^^ 2 ^ 0 } = false ∧
    (∃ res, Event.readFrom Event.fresh (buf witEventC.MarshalBin) = some res ∧
      res.ev.Valid = true) :=
  ⟨(C3_valid_checksum witEventC).2.2.1 0 (by norm_num) (by decide),
   (C3_valid_checksum witEventC).2.2.2 (by decide) (by decide) (by decide)⟩

/-- The decode outcome of a fresh Event on a source, projected to its
error; none means the process died in the payload lexer. -/
def decodeErrOf (r : Chunks) : Option (Option DecodeErr) :=
  match Event.readFrom Event.fresh r with
  | none => none
  | some res => some res.err

/-- C10: Event.ReadFrom takes the payload (and UUID node) bytes from a
single Read call and reports "read X of Y bytes" when that call returns
fewer than required, so a source that holds the complete valid frame but
delivers it across two Read calls (split mid-payload, after byte 25 of
witEvent's 37-byte frame) fails to decode, while the same frame in one
in-memory buffer decodes fully. -/
theorem C10_multi_chunk_decode_fails :
    decodeErrOf [witEvent.MarshalBin.take 25, witEvent.MarshalBin.drop 25] =
      some (some (.short "payload" 1 3)) ∧
    witEvent.MarshalBin.take 25 ++ witEvent.MarshalBin.drop 25 = witEvent.MarshalBin ∧
    Event.readFrom Event.fresh (buf witEvent.MarshalBin) =
      some ⟨witEvent, 37, [], none⟩ :=
  ⟨by decide, by decide, by decide⟩

/-- The wire-order index of the field a decode error names (node_id 0,
timestamp 1, payload_size 2, uuid 3, payload_bytes 4, decoded_payload 5,
protocol 6, submitter 7, derived ip 8, checksum 9). -/
def errFieldIdx : DecodeErr → Nat
  | .field "node ID" _ => 0
  | .field "time stamp" _ => 1
  | .field "size" _ => 2
  | .wrap "UUID" _ => 3
  | .field "payload" _ => 4
  | .short "payload" _ _ => 4
  | .field "protocol" _ => 6
  | .field "submitter" _ => 7
  | .field "checksum" _ => 9
  | _ => 0

/-- Every Event field whose wire-order index lies beyond i has the same
value in b as in a. -/
def untouchedAfter (i : Nat) (a b : Event) : Prop :=
  (i < 1 → b.TimeStamp = a.TimeStamp) ∧ (i < 2 → b.Size = a.Size) ∧
  (i < 3 → b.EventUUID = a.EventUUID) ∧ (i < 4 → b.PayloadBytes = a.PayloadBytes) ∧
  (i < 5 → b.Payload = a.Payload) ∧ (i < 6 → b.Protocol = a.Protocol) ∧
  (i < 7 → b.Submitter = a.Submitter) ∧ (i < 8 → b.IP = a.IP) ∧
  (i < 9 → b.CheckSum = a.CheckSum)

/-- C9: decode is all-or-nothing with respect to later fields — whenever
ReadFrom returns an error raised at some field, every field after it in
wire order (Payload and IP included) still holds its value from before the
call. -/
theorem C9_all_or_nothing (e0 : Event) (r : Chunks) (res : EventRead) (err : DecodeErr)
    (h : Event.readFrom e0 r = some res) (he : res.err = some err) :
    untouchedAfter (errFieldIdx err) e0 res.ev := by
  unfold Event.readFrom at h
  dsimp only at h
  repeat' split at h
  all_goals cases h
  all_goals simp only [Option.some.injEq, reduceCtorEq] at he
  all_goals subst he
  all_goals simp [untouchedAfter, errFieldIdx]

def witTruncRead : EventRead :=
  ⟨⟨1, 2, 3, ⟨1, 2, 3, 4, 5, [6, 7, 8, 9, 10, 11]⟩, [97, 58, 98], [(['a'], ['b'])],
    49, 0, none, 0⟩, 29, [[1]], some (.field "submitter" .unexpectedEOF)⟩

theorem C9_all_or_nothing_witness :
    Event.readFrom Event.fresh (buf (witEvent.MarshalBin.take 30)) = some witTruncRead ∧
      untouchedAfter (errFieldIdx (.field "submitter" .unexpectedEOF)) Event.fresh
        witTruncRead.ev :=
  ⟨by decide,
   C9_all_or_nothing Event.fresh (buf (witEvent.MarshalBin.take 30)) witTruncRead
     (.field "submitter" .unexpectedEOF) (by decide) (by decide)⟩

theorem strLtb_trans : ∀ (a b c : List Char), strLtb a b = true → strLtb b c = true →
    strLtb a c = true := by
  intro a
  induction a with
  | nil =>
    intro b c h1 h2
    cases b with
    | nil => simp [strLtb] at h1
    | cons y ys =>
      cases c with
      | nil => simp [strLtb] at h2
      | cons z zs => simp [strLtb]
  | cons x xs ih =>
    intro b c h1 h2
    cases b with
    | nil => simp [strLtb] at h1
    | cons y ys =>
      cases c with
      | nil => simp [strLtb] at h2
      | cons z zs =>
        simp only [strLtb] at h1 h2 ⊢
        by_cases hxy : x < y
        · by_cases hyz : y < z
          · simp [lt_trans hxy hyz]
          · by_cases hzy : z < y
            · simp [hyz, hzy] at h2
            · have hyz2 : y = z := le_antisymm (not_lt.mp hzy) (not_lt.mp hyz)
              subst hyz2
              simp [hxy]
        · by_cases hyx : y < x
          · simp [hxy, hyx] at h1
          · have hxy2 : x = y := le_antisymm (not_lt.mp hyx) (not_lt.mp hxy)
            subst hxy2
            simp [lt_irrefl] at h1
            by_cases hyz : x < z
            · simp [hyz]
            · by_cases hzy : z < x
              · simp [hyz, hzy] at h2
              · have hxz : x = z := le_antisymm (not_lt.mp hzy) (not_lt.mp hyz)
                subst hxz
                simp [lt_irrefl] at h2 ⊢
                exact ih ys zs h1 h2

theorem strLtb_total : ∀ (a b : List Char), strLtb a b = false → a ≠ b →
    strLtb b a = true := by
  intro a
  induction a with
  | nil =>
    intro b h1 h2
    cases b with
    | nil => simp at h2
    | cons y ys => simp [strLtb] at h1
  | cons x xs ih =>
    intro b h1 h2
    cases b with
    | nil => simp [strLtb]
    | cons y ys =>
      simp only [strLtb] at h1 ⊢
      by_cases hxy : x < y
      · simp [hxy] at h1
      · by_cases hyx : y < x
        · simp [hyx]
        · have hxy2 : x = y := le_antisymm (not_lt.mp hyx) (not_lt.mp hxy)
          subst hxy2
          simp [lt_irrefl] at h1 ⊢
          exact ih ys h1 (fun hh => h2 (by rw [hh]))

/-- The spec's ranking order: count descending, ties broken by label
ascending (byte-lexicographic). -/
def rankLess (a b : itemOccurrence) : Prop :=
  b.Occurrence < a.Occurrence ∨
    (a.Occurrence = b.Occurrence ∧ strLtb a.Item.data b.Item.data = true)

theorem rankLess_trans {a b c : itemOccurrence} (h1 : rankLess a b) (h2 : rankLess b c) :
    rankLess a c := by
  rcases h1 with h1 | ⟨h1, h1b⟩ <;> rcases h2 with h2 | ⟨h2, h2b⟩
  · left; omega
  · left; omega
  · left; omega
  · right; exact ⟨h1.trans h2, strLtb_trans _ _ _ h1b h2b⟩

theorem itemLess_true {a b : itemOccurrence} (h : itemLess a b = true) : rankLess a b := by
  unfold itemLess at h
  split at h
  · right; exact ⟨‹_›, h⟩
  · left; have := of_decide_eq_true h; omega

theorem itemLess_false {a b : itemOccurrence} (hne : a.Item ≠ b.Item)
    (h : itemLess a b = false) : rankLess b a := by
  unfold itemLess at h
  split at h
  · right
    refine ⟨Eq.symm ‹_›, ?_⟩
    exact strLtb_total _ _ h (fun hd => hne (String.ext hd))
  · left
    have h2 := of_decide_eq_false h
    have hno : ¬ a.Occurrence = b.Occurrence := ‹_›
    omega

theorem itemInsert_perm (x : itemOccurrence) (l : List itemOccurrence) :
    (itemInsert x l).Perm (x :: l) := by
  induction l with
  | nil => simp [itemInsert]
  | cons y ys ih =>
    unfold itemInsert
    split
    · exact .refl _
    · exact (ih.cons y).trans (List.Perm.swap x y ys)

theorem itemSort_perm (l : List itemOccurrence) : (itemSort l).Perm l := by
  induction l with
  | nil => simp [itemSort]
  | cons x xs ih =>
    exact (itemInsert_perm x (itemSort xs)).trans (ih.cons x)

theorem pairwise_itemInsert (x : itemOccurrence) (l : List itemOccurrence)
    (hd : ∀ y ∈ l, x.Item ≠ y.Item) (hp : l.Pairwise rankLess) :
    (itemInsert x l).Pairwise rankLess := by
  induction l with
  | nil => simp [itemInsert]
  | cons y ys ih =>
    rcases List.pairwise_cons.mp hp with ⟨hy, hys⟩
    unfold itemInsert
    split
    · have hxy := itemLess_true ‹itemLess x y = true›
      refine List.pairwise_cons.mpr ⟨?_, hp⟩
      intro z hz
      rcases List.mem_cons.mp hz with rfl | hz2
      · exact hxy
      · exact rankLess_trans hxy (hy z hz2)
    · have hf : itemLess x y = false := Bool.eq_false_iff.mpr ‹¬ itemLess x y = true›
      have hyx := itemLess_false (hd y (by simp)) hf
      refine List.pairwise_cons.mpr ⟨?_, ih (fun z hz => hd z (by simp [hz])) hys⟩
      intro z hz
      have hz3 : z = x ∨ z ∈ ys := by
        simpa using (itemInsert_perm x ys).mem_iff.mp hz
      rcases hz3 with rfl | hz4
      · exact hyx
      · exact hy z hz4

theorem pairwise_itemSort (l : List itemOccurrence)
    (hd : l.Pairwise (fun a b => a.Item ≠ b.Item)) :
    (itemSort l).Pairwise rankLess := by
  induction l with
  | nil => simp [itemSort]
  | cons x xs ih =>
    rcases List.pairwise_cons.mp hd with ⟨hx, hxs⟩
    unfold itemSort
    exact pairwise_itemInsert x (itemSort xs)
      (fun y hy => hx y ((itemSort_perm xs).mem_iff.mp hy)) (ih hxs)

/-- C7: for every occurrence map (entries with pairwise distinct labels,
in any map-iteration order) and every n, top(n) has exactly n entries:
some Less-sorted permutation of the real entries (count descending, ties
by label ascending) cut to n, padded — when fewer than n labels exist —
with empty placeholder entries; in particular on counts {A:5, B:5, C:3},
top 2 = [A, B] and top 5 = the three real entries plus two placeholders. -/
theorem C7_top_ranking :
    (∀ (entries : List itemOccurrence) (n : Nat),
      entries.Pairwise (fun a b => a.Item ≠ b.Item) →
      (top entries n).length = n ∧
      ∃ sorted : List itemOccurrence, sorted.Perm entries ∧ sorted.Pairwise rankLess ∧
        top entries n = sorted.take n ++ List.replicate (n - entries.length) ⟨"", 0⟩) ∧
    top [⟨"C", 3⟩, ⟨"B", 5⟩, ⟨"A", 5⟩] 2 = [⟨"A", 5⟩, ⟨"B", 5⟩] ∧
    top [⟨"C", 3⟩, ⟨"B", 5⟩, ⟨"A", 5⟩] 5 =
      [⟨"A", 5⟩, ⟨"B", 5⟩, ⟨"C", 3⟩, ⟨"", 0⟩, ⟨"", 0⟩] := by
  refine ⟨?_, by decide, by decide⟩
  intro entries n hd
  have hperm := itemSort_perm entries
  have hlen : (itemSort entries).length = entries.length := hperm.length_eq
  constructor
  · by_cases hc : (itemSort entries).length < n
    · simp [top, hc, List.length_take, List.length_append, List.length_replicate]
      omega
    · simp [top, hc, List.length_take]
      omega
  · refine ⟨itemSort entries, hperm, pairwise_itemSort _ hd, ?_⟩
    dsimp only [top]
    by_cases hc : (itemSort entries).length < n
    · rw [if_pos hc]
      have hl2 : ((itemSort entries) ++
          List.replicate (n - (itemSort entries).length) (⟨"", 0⟩ : itemOccurrence)).length = n := by
        simp
        omega
      rw [List.take_of_length_le (le_of_eq hl2), List.take_of_length_le (by omega), hlen]
    · rw [if_neg hc]
      have hz : n - entries.length = 0 := by omega
      simp [hz]

theorem C7_top_ranking_witness :
    (top [⟨"C", 3⟩, ⟨"B", 5⟩, ⟨"A", 5⟩] 4).length = 4 ∧
    ∃ sorted : List itemOccurrence,
      sorted.Perm [⟨"C", 3⟩, ⟨"B", 5⟩, ⟨"A", 5⟩] ∧ sorted.Pairwise rankLess ∧
      top [⟨"C", 3⟩, ⟨"B", 5⟩, ⟨"A", 5⟩] 4 =
        sorted.take 4 ++ List.replicate (4 - 3) ⟨"", 0⟩ :=
  C7_top_ranking.1 [⟨"C", 3⟩, ⟨"B", 5⟩, ⟨"A", 5⟩] 4 (by decide)

theorem idxOf?_lt (c : Char) : ∀ (rem : List Char) (i : Nat),
    idxOf? c rem = some i → i < rem.length := by
  intro rem
  induction rem with
  | nil => intro i h; simp [idxOf?] at h
  | cons x xs ih =>
    intro i h
    unfold idxOf? at h
    split at h
    · simp at h
      simp
      omega
    · cases hx : idxOf? c xs with
      | none => rw [hx] at h; simp at h
      | some j =>
        rw [hx] at h
        simp at h
        have := ih j hx
        simp
        omega

theorem idxOf?_get (c : Char) : ∀ (rem : List Char) (i : Nat),
    idxOf? c rem = some i → rem[i]? = some c := by
  intro rem
  induction rem with
  | nil => intro i h; simp [idxOf?] at h
  | cons x xs ih =>
    intro i h
    unfold idxOf? at h
    split at h
    · simp at h
      subst h
      simpa using ‹x = c›
    · cases hx : idxOf? c xs with
      | none => rw [hx] at h; simp at h
      | some j =>
        rw [hx] at h
        simp at h
        subst h
        simpa using ih j hx

theorem idxOf?_none (c : Char) : ∀ (rem : List Char),
    idxOf? c rem = none ↔ c ∉ rem := by
  intro rem
  induction rem with
  | nil => simp [idxOf?]
  | cons x xs ih =>
    by_cases hxc : x = c
    · subst hxc
      simp [idxOf?]
    · have hstep : idxOf? c (x :: xs) = (idxOf? c xs).map (· + 1) := by
        simp [idxOf?, hxc]
      rw [hstep]
      cases hx : idxOf? c xs with
      | none =>
        simp only [Option.map_none']
        have hm := ih.mp hx
        simp only [List.mem_cons, true_iff]
        intro hor
        rcases hor with h1 | h1
        · exact hxc h1.symm
        · exact hm h1
      | some j =>
        have hmem : c ∈ xs := by
          by_contra hm
          rw [ih.mpr hm] at hx
          cases hx
        simp [hmem]

theorem tw_some (c : Char) : ∀ (rem : List Char) (i : Nat), idxOf? c rem = some i →
    ((rem.takeWhile (fun x => x != c)).length = i) := by
  intro rem
  induction rem with
  | nil => intro i h; simp [idxOf?] at h
  | cons x xs ih =>
    intro i h
    unfold idxOf? at h
    split at h
    · simp at h
      subst ‹x = c›
      simp [List.takeWhile_cons]
      omega
    · cases hx : idxOf? c xs with
      | none => rw [hx] at h; simp at h
      | some j =>
        rw [hx] at h
        simp at h
        subst h
        simp [List.takeWhile_cons, bne_iff_ne, ‹¬ x = c›, ih j hx]

theorem tw_none (c : Char) : ∀ (rem : List Char), idxOf? c rem = none →
    ((rem.takeWhile (fun x => x != c)).length = rem.length) := by
  intro rem
  induction rem with
  | nil => intro h; simp
  | cons x xs ih =>
    intro h
    unfold idxOf? at h
    split at h
    · simp at h
    · cases hx : idxOf? c xs with
      | some j => rw [hx] at h; simp at h
      | none =>
        simp [List.takeWhile_cons, bne_iff_ne, ‹¬ x = c›, ih hx]

theorem acceptUntil_hit (l : lexer) (c : Char) (i : Nat)
    (h : idxOf? c (l.input.drop l.pos) = some i) (hp : l.pos ≤ l.input.length) :
    acceptUntil l c = ⟨l.input, l.start, l.pos + i, 1⟩ := by
  have h1 := tw_some c _ _ h
  have h2 := idxOf?_lt c _ _ h
  rw [List.length_drop] at h2
  unfold acceptUntil
  rw [h1]
  dsimp only
  rw [if_pos (by omega)]

theorem acceptUntil_miss (l : lexer) (c : Char)
    (h : idxOf? c (l.input.drop l.pos) = none) (hp : l.pos ≤ l.input.length) :
    acceptUntil l c = ⟨l.input, l.start, l.input.length, 0⟩ := by
  have h1 := tw_none c _ h
  rw [List.length_drop] at h1
  unfold acceptUntil
  rw [h1]
  dsimp only
  have h2 : l.pos + (l.input.length - l.pos) = l.input.length := by omega
  rw [h2, if_neg (by omega)]

theorem lexFirst_pair (l : lexer) :
    lexFirst l [',', ':'] =
      match idxOf? ',' (l.input.drop l.pos), idxOf? ':' (l.input.drop l.pos) with
      | none, none => none
      | some _, none => some ','
      | none, some _ => some ':'
      | some mi, some ci => if ci < mi then some ':' else some ',' := by
  unfold lexFirst
  cases hm : idxOf? ',' (l.input.drop l.pos) <;>
    cases hc : idxOf? ':' (l.input.drop l.pos) <;>
      simp [List.foldl_cons, List.foldl_nil, hm, hc]
  split <;> simp

theorem lexValue_panic (l : lexer) (hp : l.input.length < l.pos) :
    lexValue l = .panicked l.pos := by
  unfold lexValue lexIndex
  rw [if_neg (by omega)]

theorem lexValue_more (l : lexer) (hp : l.pos ≤ l.input.length) (ci mi : Nat)
    (hci : idxOf? ':' (l.input.drop l.pos) = some ci)
    (hmi : idxOf? ',' (l.input.drop l.pos) = some mi) (hlt : mi < ci) :
    lexValue l = .more [⟨tokenType.tokenValue, l.pos + mi,
        (l.input.drop l.start).take (l.pos + mi - l.start)⟩]
      ⟨l.input, l.pos + mi, l.pos + mi, 1⟩ := by
  have hmlen := idxOf?_lt ',' _ _ hmi
  rw [List.length_drop] at hmlen
  unfold lexValue lexIndex
  rw [if_pos hp]
  dsimp only
  rw [lexFirst_pair, hci, hmi]
  dsimp only
  rw [if_neg (by omega : ¬ ci < mi)]
  have hg : ((some ci).isSome && ((some ',' : Option Char) == some ',')) = true := by simp
  rw [hg, if_pos rfl]
  rw [acceptUntil_hit l ',' mi hmi hp]
  unfold emit
  dsimp only
  rw [if_neg (by omega)]

theorem lexValue_stop (l : lexer) (hp : l.pos ≤ l.input.length)
    (hguard : idxOf? ':' (l.input.drop l.pos) = none ∨
      idxOf? ',' (l.input.drop l.pos) = none ∨
      (∃ ci mi, idxOf? ':' (l.input.drop l.pos) = some ci ∧
        idxOf? ',' (l.input.drop l.pos) = some mi ∧ ci < mi)) :
    lexValue l = .stop [⟨tokenType.tokenValue, l.input.length,
        (l.input.drop l.start).take (l.input.length - l.start)⟩,
      ⟨tokenType.tokenEOF, l.input.length, []⟩]
      ⟨l.input, l.input.length, l.input.length, 0⟩ := by
  unfold lexValue lexIndex
  rw [if_pos hp]
  dsimp only
  have hg : ((idxOf? ':' (l.input.drop l.pos)).isSome &&
      (lexFirst l [',', ':'] == some ',')) = false := by
    rcases hguard with h | h | ⟨ci, mi, hci, hmi, hlt⟩
    · simp [h]
    · rw [lexFirst_pair, h]
      cases hc : idxOf? ':' (l.input.drop l.pos) <;> simp
    · rw [lexFirst_pair, hci, hmi]
      simp [hlt]
  rw [hg, if_neg (by simp)]
  rw [acceptUntilEOF, Nat.max_eq_right hp]
  unfold emit
  dsimp only
  rw [if_pos (by omega)]
  simp

theorem lexRun_ok : ∀ (fuel : Nat) (l : lexer) (acc : List token),
    ':' ∈ l.input.drop l.pos → l.pos ≤ l.input.length →
    l.input.length - l.pos < fuel →
    ∃ ts p, lexRun fuel l acc = .ok (acc ++ (ts ++ [⟨tokenType.tokenEOF, p, []⟩])) := by
  intro fuel
  induction fuel with
  | zero => intro l acc _ _ hf; omega
  | succ fuel ih =>
    intro l acc hcol hp hf
    obtain ⟨ci, hci⟩ : ∃ ci, idxOf? ':' (l.input.drop l.pos) = some ci := by
      cases hx : idxOf? ':' (l.input.drop l.pos) with
      | none => exact absurd hcol ((idxOf?_none ':' _).mp hx)
      | some j => exact ⟨j, rfl⟩
    have hcilen := idxOf?_lt ':' _ _ hci
    rw [List.length_drop] at hcilen
    rw [lexRun, acceptUntil_hit l ':' ci hci hp]
    unfold emit
    dsimp only
    have hp3 : l.pos + ci + 1 ≤ l.input.length := by omega
    cases h2c : idxOf? ':' (l.input.drop (l.pos + ci + 1)) with
    | none =>
      rw [lexValue_stop ⟨l.input, l.pos + ci + 1, l.pos + ci + 1, 1⟩ hp3 (by left; exact h2c)]
      dsimp only
      exact ⟨[⟨tokenType.tokenKey, l.pos + ci, (l.input.drop l.start).take (l.pos + ci - l.start)⟩,
        ⟨tokenType.tokenValue, l.input.length,
          (l.input.drop (l.pos + ci + 1)).take (l.input.length - (l.pos + ci + 1))⟩],
        l.input.length, rfl⟩
    | some ci2 =>
      cases h2m : idxOf? ',' (l.input.drop (l.pos + ci + 1)) with
      | none =>
        rw [lexValue_stop ⟨l.input, l.pos + ci + 1, l.pos + ci + 1, 1⟩ hp3
          (by right; left; exact h2m)]
        dsimp only
        exact ⟨[⟨tokenType.tokenKey, l.pos + ci, (l.input.drop l.start).take (l.pos + ci - l.start)⟩,
          ⟨tokenType.tokenValue, l.input.length,
            (l.input.drop (l.pos + ci + 1)).take (l.input.length - (l.pos + ci + 1))⟩],
          l.input.length, rfl⟩
      | some mi2 =>
        have hne : ci2 ≠ mi2 := by
          intro hq
          have g1 := idxOf?_get ':' _ _ h2c
          have g2 := idxOf?_get ',' _ _ h2m
          rw [hq, g2] at g1
          simp at g1
        by_cases hcm : mi2 < ci2
        · -- lexes the pair separator and recurses
          rw [lexValue_more ⟨l.input, l.pos + ci + 1, l.pos + ci + 1, 1⟩ hp3 ci2 mi2 h2c h2m hcm]
          dsimp only
          have hmlen := idxOf?_lt ',' _ _ h2m
          rw [List.length_drop] at hmlen
          have hclen2 := idxOf?_lt ':' _ _ h2c
          rw [List.length_drop] at hclen2
          have hcol5 : ':' ∈ l.input.drop (l.pos + ci + 1 + mi2 + 1) := by
            have g1 := idxOf?_get ':' _ _ h2c
            rw [List.getElem?_drop] at g1
            have g2 : (l.input.drop (l.pos + ci + 1 + mi2 + 1))[ci2 - mi2 - 1]? = some ':' := by
              rw [List.getElem?_drop]
              have harith : l.pos + ci + 1 + mi2 + 1 + (ci2 - mi2 - 1) = l.pos + ci + 1 + ci2 := by
                omega
              rw [harith]
              exact g1
            obtain ⟨hlt2, hget⟩ := List.getElem?_eq_some.mp g2
            exact List.mem_iff_getElem.mpr ⟨_, hlt2, hget⟩
          have hp5 : l.pos + ci + 1 + mi2 + 1 ≤ l.input.length := by omega
          have hf5 : l.input.length - (l.pos + ci + 1 + mi2 + 1) < fuel := by omega
          obtain ⟨ts', p', hrun⟩ := ih ⟨l.input, l.pos + ci + 1 + mi2 + 1,
            l.pos + ci + 1 + mi2 + 1, 1⟩
            (acc ++ [⟨tokenType.tokenKey, l.pos + ci,
                (l.input.drop l.start).take (l.pos + ci - l.start)⟩,
              ⟨tokenType.tokenValue, l.pos + ci + 1 + mi2,
                (l.input.drop (l.pos + ci + 1)).take (l.pos + ci + 1 + mi2 - (l.pos + ci + 1))⟩])
            hcol5 hp5 hf5
          refine ⟨[⟨tokenType.tokenKey, l.pos + ci,
              (l.input.drop l.start).take (l.pos + ci - l.start)⟩,
            ⟨tokenType.tokenValue, l.pos + ci + 1 + mi2,
              (l.input.drop (l.pos + ci + 1)).take (l.pos + ci + 1 + mi2 - (l.pos + ci + 1))⟩] ++
            ts', p', ?_⟩
          rw [hrun]
          simp [List.append_assoc]
        · -- the colon comes first: the value runs to end of input
          rw [lexValue_stop ⟨l.input, l.pos + ci + 1, l.pos + ci + 1, 1⟩ hp3
            (by right; right; exact ⟨ci2, mi2, h2c, h2m, by omega⟩)]
          dsimp only
          exact ⟨[⟨tokenType.tokenKey, l.pos + ci,
              (l.input.drop l.start).take (l.pos + ci - l.start)⟩,
            ⟨tokenType.tokenValue, l.input.length,
              (l.input.drop (l.pos + ci + 1)).take (l.input.length - (l.pos + ci + 1))⟩],
            l.input.length, rfl⟩

theorem lex_panic (input : List Char) (h : ':' ∉ input) :
    lex input = .error (input.length + 1) := by
  unfold lex
  rw [lexRun, acceptUntil_miss ⟨input, 0, 0, 0⟩ ':'
    (by simpa using (idxOf?_none ':' input).mpr h) (by simp)]
  unfold emit
  dsimp only
  rw [lexValue_panic ⟨input, input.length + 1, input.length + 1, 0⟩ (by dsimp only; omega)]

theorem C2_lexer_counterexample :
    lex "abc".data = .error 4 ∧ lex "".data = .error 1 ∧
      parsePayload [] = .error 1 :=
  ⟨by decide, by decide, by decide⟩

/-- C2 (amended): on any input containing at least one ":" the payload
lexer terminates, emitting a best-effort token sequence that ends with the
end-of-input token, and populating decoded_payload succeeds; but on any
input with no ":" at all (the empty string included) the lexer slices
input[pos:] out of range — a runtime panic at position length+1 — and
parsePayloadRaw dies with it instead of returning. -/
theorem C2_lexer_amended (input : List Char) (bs : List Nat) :
    (':' ∈ input → ∃ ts p, lex input = .ok (ts ++ [⟨tokenType.tokenEOF, p, []⟩])) ∧
    (':' ∉ input → lex input = .error (input.length + 1)) ∧
    (':' ∈ bs.map Char.ofNat → ∃ m, parsePayload bs = .ok m) := by
  refine ⟨?_, fun h => lex_panic input h, ?_⟩
  · intro h
    obtain ⟨ts, p, hr⟩ := lexRun_ok (input.length + 1) ⟨input, 0, 0, 0⟩ []
      (by simpa using h) (by simp) (by simp)
    exact ⟨ts, p, by simpa [lex] using hr⟩
  · intro h
    obtain ⟨ts, p, hr⟩ := lexRun_ok ((bs.map Char.ofNat).length + 1)
      ⟨bs.map Char.ofNat, 0, 0, 0⟩ [] (by simpa using h) (by simp) (by simp)
    have hlex : lex (bs.map Char.ofNat) =
        .ok ([] ++ (ts ++ [⟨tokenType.tokenEOF, p, []⟩])) := by
      simpa [lex] using hr
    unfold parsePayload
    rw [hlex]
    exact ⟨_, rfl⟩

theorem C2_lexer_amended_witness :
    ∃ m, parsePayload [97, 58, 98] = .ok m :=
  (C2_lexer_amended "a:b".data [97, 58, 98]).2.2 (by decide)

/-- C6: in the scan-value state (entered with start = pos), the value
token extends to the first "," (excluded, the token offset sitting on the
",") exactly when the remaining input has a later ":" and the nearest
occurrence among "," and ":" is the ","; otherwise the value token runs to
end of input; and the concrete input "username:alexander,password:..."
lexes to the documented key/value/end tokens whose offsets are the
positions just past each span. -/
theorem C6_value_termination :
    (∀ l : lexer, l.pos ≤ l.input.length → l.start = l.pos →
      (∀ ci mi, idxOf? ':' (l.input.drop l.pos) = some ci →
        idxOf? ',' (l.input.drop l.pos) = some mi → mi < ci →
        lexValue l = .more
          [⟨tokenType.tokenValue, l.pos + mi, (l.input.drop l.pos).take mi⟩]
          ⟨l.input, l.pos + mi, l.pos + mi, 1⟩) ∧
      (idxOf? ':' (l.input.drop l.pos) = none ∨
        idxOf? ',' (l.input.drop l.pos) = none ∨
        (∃ ci mi, idxOf? ':' (l.input.drop l.pos) = some ci ∧
          idxOf? ',' (l.input.drop l.pos) = some mi ∧ ci < mi) →
        lexValue l = .stop
          [⟨tokenType.tokenValue, l.input.length, l.input.drop l.pos⟩,
            ⟨tokenType.tokenEOF, l.input.length, []⟩]
          ⟨l.input, l.input.length, l.input.length, 0⟩)) ∧
    lex "username:alexander,password:Scribeapple".data =
      .ok [⟨tokenType.tokenKey, 8, "username".data⟩,
           ⟨tokenType.tokenValue, 18, "alexander".data⟩,
           ⟨tokenType.tokenKey, 27, "password".data⟩,
           ⟨tokenType.tokenValue, 39, "Scribeapple".data⟩,
           ⟨tokenType.tokenEOF, 39, []⟩] := by
  refine ⟨?_, by decide⟩
  intro l hp hs
  constructor
  · intro ci mi hci hmi hlt
    rw [lexValue_more l hp ci mi hci hmi hlt, hs]
    simp
  · intro hcase
    rw [lexValue_stop l hp hcase, hs]
    have h1 : (l.input.drop l.pos).take (l.input.length - l.pos) = l.input.drop l.pos := by
      apply List.take_of_length_le
      rw [List.length_drop]
    simp [h1]

theorem C6_value_termination_witness :
    lexValue ⟨"a:b,c:d".data, 2, 2, 1⟩ =
      .more [⟨tokenType.tokenValue, 2 + 1, (("a:b,c:d".data).drop 2).take 1⟩]
        ⟨"a:b,c:d".data, 2 + 1, 2 + 1, 1⟩ :=
  (C6_value_termination.1 ⟨"a:b,c:d".data, 2, 2, 1⟩ (by decide) rfl).1 3 1
    (by decide) (by decide) (by decide)

theorem collectLoop_all_valid (pulls : Nat → Pull) : ∀ (rem i : Nat) (acc evs : List Event),
    (∀ e ∈ acc, e.Valid = true) →
    collectLoop pulls i rem acc = some (.ok evs) → ∀ e ∈ evs, e.Valid = true := by
  intro rem
  induction rem with
  | zero =>
    intro i acc evs hacc h
    simp [collectLoop] at h
    subst h
    exact hacc
  | succ rem ih =>
    intro i acc evs hacc h
    rw [collectLoop] at h
    split at h
    · simp at h; subst h; exact hacc
    · simp at h; subst h; exact hacc
    · split at h
      · cases h
      · split at h
        · simp at h
        · split at h
          · refine ih (i + 1) _ evs ?_ h
            intro e he
            rcases List.mem_append.mp he with h1 | h1
            · exact hacc e h1
            · simp at h1
              subst h1
              assumption
          · exact ih (i + 1) acc evs hacc h

theorem collectLoop_ok_of_decodable (pulls : Nat → Pull)
    (hdec : ∀ j r, pulls j = .datagram r →
      ∃ res, Event.readFrom Event.fresh r = some res ∧ res.err = none) :
    ∀ (rem i : Nat) (acc : List Event),
      ∃ evs, collectLoop pulls i rem acc = some (.ok evs) := by
  intro rem
  induction rem with
  | zero => intro i acc; exact ⟨acc, rfl⟩
  | succ rem ih =>
    intro i acc
    rw [collectLoop]
    split
    · exact ⟨acc, rfl⟩
    · exact ⟨acc, rfl⟩
    · rename_i r hr
      obtain ⟨res, hres, herr⟩ := hdec i r hr
      rw [hres]
      dsimp only
      rw [herr]
      dsimp only
      split
      · exact ih (i + 1) _
      · exact ih (i + 1) _

theorem collectLoop_error_cause (pulls : Nat → Pull) : ∀ (rem i : Nat) (acc : List Event)
    (er : CollectErr), collectLoop pulls i rem acc = some (.error er) →
    ∃ de, er = .decode de ∧ ∃ j r res, pulls j = .datagram r ∧
      Event.readFrom Event.fresh r = some res ∧ res.err = some de := by
  intro rem
  induction rem with
  | zero => intro i acc er h; simp [collectLoop] at h
  | succ rem ih =>
    intro i acc er h
    rw [collectLoop] at h
    split at h
    · simp at h
    · simp at h
    · rename_i r hr
      split at h
      · cases h
      · rename_i res hres
        split at h
        · rename_i de herr
          simp at h
          exact ⟨de, h.symm, i, r, res, hr, hres, herr⟩
        · rename_i herr
          split at h
          · exact ih (i + 1) _ er h
          · exact ih (i + 1) _ er h

/-- C5 (amended): collectEvents fails with "no datagrams" when fewer than
one datagram is requested and with the handshake error when the one-time
introduction write fails; when every pulled datagram decodes without error
(in particular no payload panics the lexer) every other run — cancellation
before or during the loop, a closed queue, any number of invalid events —
returns the events collected so far with a nil error; and every returned
error really is one of those three causes.  (The unamended claim fails
because a datagram whose payload has no ":" kills the process inside
decode, returning nothing at all.) -/
theorem C5_collect_errors (datagrams size cache : Int) (hs : Bool) (pulls : Nat → Pull) :
    (datagrams < 1 →
      collectEvents datagrams size cache hs pulls = some (.error .noDatagrams)) ∧
    (1 ≤ datagrams → hs = false →
      collectEvents datagrams size cache hs pulls = some (.error .handshake)) ∧
    ((∀ j r, pulls j = .datagram r →
        ∃ res, Event.readFrom Event.fresh r = some res ∧ res.err = none) →
      1 ≤ datagrams → hs = true →
      ∃ evs, collectEvents datagrams size cache hs pulls = some (.ok evs)) ∧
    (∀ er, collectEvents datagrams size cache hs pulls = some (.error er) →
      (er = .noDatagrams ∧ datagrams < 1) ∨ (er = .handshake ∧ hs = false) ∨
      ∃ de, er = .decode de ∧ ∃ j r res, pulls j = .datagram r ∧
        Event.readFrom Event.fresh r = some res ∧ res.err = some de) := by
  refine ⟨?_, ?_, ?_, ?_⟩
  · intro h
    simp [collectEvents, h]
  · intro h1 h2
    unfold collectEvents
    rw [if_neg (by omega : ¬ datagrams < 1)]
    subst h2
    rw [if_pos rfl]
  · intro hdec h1 h2
    unfold collectEvents
    rw [if_neg (by omega : ¬ datagrams < 1)]
    subst h2
    rw [if_neg (by simp)]
    exact collectLoop_ok_of_decodable pulls hdec datagrams.toNat 1 []
  · intro er h
    unfold collectEvents at h
    by_cases h1 : datagrams < 1
    · rw [if_pos h1] at h
      simp at h
      exact Or.inl ⟨h.symm, h1⟩
    · rw [if_neg h1] at h
      by_cases h2 : hs = false
      · rw [if_pos h2] at h
        simp at h
        exact Or.inr (Or.inl ⟨h.symm, h2⟩)
      · rw [if_neg h2] at h
        exact Or.inr (Or.inr (collectLoop_error_cause pulls datagrams.toNat 1 [] er h))

theorem C5_collect_errors_witness :
    collectEvents 0 512 20 true (fun _ => .closed) = some (.error .noDatagrams) ∧
    (∃ evs, collectEvents 3 512 20 true (fun _ => .closed) = some (.ok evs)) :=
  ⟨(C5_collect_errors 0 512 20 true (fun _ => .closed)).1 (by norm_num),
   (C5_collect_errors 3 512 20 true (fun _ => .closed)).2.2.1
     (fun _ _ hj => nomatch hj) (by norm_num) rfl⟩

/-- C8: every Event in the slice a successful collectEvents call returns
satisfies Valid: a decoded-but-invalid event is discarded by the loop (its
iteration still consumed) and never appears in the result. -/
theorem C8_only_valid_events (datagrams size cache : Int) (hs : Bool) (pulls : Nat → Pull)
    (evs : List Event) (h : collectEvents datagrams size cache hs pulls = some (.ok evs)) :
    ∀ e ∈ evs, e.Valid = true := by
  unfold collectEvents at h
  split at h
  · simp at h
  · split at h
    · simp at h
    · exact collectLoop_all_valid pulls datagrams.toNat 1 [] evs (by simp) h

set_option maxRecDepth 40000 in
theorem C8_only_valid_events_witness :
    collectEvents 2 512 20 true
      (fun i => if i = 1 then .datagram (buf witEvent.MarshalBin)
        else .datagram (buf witEventC.MarshalBin)) = some (.ok [witEventC]) ∧
    ∀ e ∈ [witEventC], e.Valid = true :=
  ⟨by decide,
   C8_only_valid_events 2 512 20 true
     (fun i => if i = 1 then .datagram (buf witEvent.MarshalBin)
       else .datagram (buf witEventC.MarshalBin)) [witEventC] (by decide)⟩

theorem C5_collect_counterexample :
    collectEvents 1 512 20 true
      (fun _ => .datagram (buf (Event.MarshalBin
        { witEvent with Size := 1, PayloadBytes := [97] }))) = none := by
  decide

theorem take_app_of_le {α : Type} (a b : List α) (m : Nat) (h : a.length ≤ m) :
    (a ++ b).take m = a ++ b.take (m - a.length) := by
  rw [List.take_append_eq_append_take, List.take_of_length_le h]

theorem take_app_of_ge {α : Type} (a b : List α) (m : Nat) (h : m ≤ a.length) :
    (a ++ b).take m = a.take m := by
  rw [List.take_append_eq_append_take]
  have h0 : m - a.length = 0 := by omega
  simp [h0]

theorem take_ne_nil {α : Type} (l : List α) (k : Nat) (h1 : k ≠ 0) (h2 : l ≠ []) :
    l.take k ≠ [] := by
  intro hh
  have hlen := congrArg List.length hh
  rw [List.length_take] at hlen
  simp only [List.length_nil] at hlen
  rcases Nat.min_eq_zero_iff.mp hlen with h | h
  · exact h1 h
  · exact h2 (List.eq_nil_of_length_eq_zero h)

/-- The field-labeled error UUID.ReadFrom raises when its source holds
only the first k < 16 bytes of an encoded UUID. -/
def uuidTruncErr (k : Nat) : DecodeErr :=
  if k = 0 then .field "time low" .eof
  else if k < 4 then .field "time low" .unexpectedEOF
  else if k = 4 then .field "time mid" .eof
  else if k < 6 then .field "time mid" .unexpectedEOF
  else if k = 6 then .field "time hi and version" .eof
  else if k < 8 then .field "time hi and version" .unexpectedEOF
  else if k = 8 then .field "clock seq hi and res" .eof
  else if k = 9 then .field "clock seq low" .eof
  else if k = 10 then .field "node" .eof
  else .short "node" (k - 10) 6

theorem buf_nil : buf ([] : List Nat) = [] := rfl

theorem readFull_take (w : Nat) (a R : List Nat) (m : Nat) (ha : a.length = w)
    (hw : 0 < w) (hm : w ≤ m) :
    readFull w (buf ((a ++ R).take m)) = .ok (a, buf (R.take (m - w))) := by
  rw [take_app_of_le a R m (by omega), ha]
  have hane : a ≠ [] := by intro hh; rw [hh] at ha; simp at ha; omega
  by_cases hR : R.take (m - w) = []
  · rw [hR]
    simp only [List.append_nil]
    rw [buf_of_ne _ hane, readFull_exact w a ha]
    simp [buf, hR]
  · rw [buf_of_ne _ (by simp [hane]), readFull_append w a _ ha hR, buf_of_ne _ hR]

theorem readOnce_take (w : Nat) (a R : List Nat) (m : Nat) (ha : a.length = w)
    (hw : 0 < w) (hm : w ≤ m) :
    readOnce w (buf ((a ++ R).take m)) = .ok (a, buf (R.take (m - w))) := by
  rw [take_app_of_le a R m (by omega), ha]
  have hane : a ≠ [] := by intro hh; rw [hh] at ha; simp at ha; omega
  by_cases hR : R.take (m - w) = []
  · rw [hR]
    simp only [List.append_nil]
    rw [buf_of_ne _ hane, readOnce_exact w a ha]
    simp [buf, hR]
  · rw [buf_of_ne _ (by simp [hane]), readOnce_append w a _ ha hR, buf_of_ne _ hR]

theorem uuid_readFrom_trunc (u0 u : UUID) (hw : u.WF) (k : Nat) (hk : k < 16) :
    (UUID.readFrom u0 (buf (u.marshalBinary.take k))).err = some (uuidTruncErr k) := by
  obtain ⟨h1, h2, h3, h4, h5, h6, h7⟩ := hw
  have hnd : u.Node ≠ [] := by intro hh; rw [hh] at h6; simp at h6
  have um : u.marshalBinary =
      beBytes 4 u.TimeLow ++ (beBytes 2 u.TimeMid ++ (beBytes 2 u.TimeHiAndVersion ++
        ([u.ClockSeqHiAndRes] ++ ([u.ClockSeqLow] ++ u.Node)))) := by
    simp [UUID.marshalBinary, List.append_assoc]
  rw [um]
  by_cases hk0 : k = 0
  · subst hk0
    simp only [List.take_zero]
    rw [buf_nil]
    unfold UUID.readFrom
    rw [readFull_nil 4 (by omega)]
    simp [uuidTruncErr]
  by_cases hk4 : k < 4
  · rw [take_app_of_ge _ _ _ (by simp [beBytes_length]; omega)]
    unfold UUID.readFrom
    rw [buf_of_ne _ (take_ne_nil _ _ hk0 (beBytes_ne_nil 4 _ (by omega))),
      readFull_short 4 _ (take_ne_nil _ _ hk0 (beBytes_ne_nil 4 _ (by omega)))
        (by simp [List.length_take, beBytes_length]; omega)]
    dsimp only
    simp [uuidTruncErr, hk0, hk4]
  unfold UUID.readFrom
  rw [readFull_take 4 _ _ k (beBytes_length 4 _) (by omega) (by omega)]
  dsimp only
  by_cases hk4e : k = 4
  · subst hk4e
    simp only [Nat.sub_self, List.take_zero]
    rw [buf_nil]
    rw [readFull_nil 2 (by omega)]
    simp [uuidTruncErr]
  by_cases hk6 : k < 6
  · rw [take_app_of_ge _ _ _ (by simp [beBytes_length]; omega)]
    rw [buf_of_ne _ (take_ne_nil _ _ (by omega) (beBytes_ne_nil 2 _ (by omega))),
      readFull_short 2 _ (take_ne_nil _ _ (by omega) (beBytes_ne_nil 2 _ (by omega)))
        (by simp [List.length_take, beBytes_length]; omega)]
    dsimp only
    simp [uuidTruncErr, hk0, hk4, hk4e, hk6]
  rw [readFull_take 2 _ _ (k - 4) (beBytes_length 2 _) (by omega) (by omega)]
  dsimp only
  by_cases hk6e : k = 6
  · subst hk6e
    simp only [show (6 : Nat) - 4 - 2 = 0 from rfl, List.take_zero]
    rw [buf_nil]
    rw [readFull_nil 2 (by omega)]
    simp [uuidTruncErr]
  by_cases hk8 : k < 8
  · rw [take_app_of_ge _ _ _ (by simp [beBytes_length]; omega)]
    rw [buf_of_ne _ (take_ne_nil _ _ (by omega) (beBytes_ne_nil 2 _ (by omega))),
      readFull_short 2 _ (take_ne_nil _ _ (by omega) (beBytes_ne_nil 2 _ (by omega)))
        (by simp [List.length_take, beBytes_length]; omega)]
    dsimp only
    simp [uuidTruncErr, hk0, hk4, hk4e, hk6, hk6e, hk8]
  rw [readFull_take 2 _ _ (k - 4 - 2) (beBytes_length 2 _) (by omega) (by omega)]
  dsimp only
  by_cases hk8e : k = 8
  · subst hk8e
    simp only [show (8 : Nat) - 4 - 2 - 2 = 0 from rfl, List.take_zero]
    rw [buf_nil]
    rw [readFull_nil 1 (by omega)]
    simp [uuidTruncErr]
  rw [readFull_take 1 _ _ (k - 4 - 2 - 2) (by simp) (by omega) (by omega)]
  dsimp only
  by_cases hk9e : k = 9
  · subst hk9e
    simp only [show (9 : Nat) - 4 - 2 - 2 - 1 = 0 from rfl, List.take_zero]
    rw [buf_nil]
    rw [readFull_nil 1 (by omega)]
    simp [uuidTruncErr]
  rw [readFull_take 1 _ _ (k - 4 - 2 - 2 - 1) (by simp) (by omega) (by omega)]
  dsimp only
  by_cases hk10e : k = 10
  · subst hk10e
    simp only [show (10 : Nat) - 4 - 2 - 2 - 1 - 1 = 0 from rfl, List.take_zero]
    rw [buf_nil]
    rw [readOnce_nil 6 (by omega)]
    simp [uuidTruncErr]
  -- 10 < k < 16: a short node read
  rw [buf_of_ne _ (take_ne_nil _ _ (by omega) hnd),
    readOnce_under 6 _ (by simp [List.length_take]; omega)]
  dsimp only
  rw [if_neg (by simp [List.length_take]; omega)]
  dsimp only
  have hlen : (u.Node.take (k - 4 - 2 - 2 - 1 - 1)).length = k - 10 := by
    simp [List.length_take]
    omega
  rw [hlen]
  simp [uuidTruncErr, hk0, hk4, hk4e, hk6, hk6e, hk8, hk8e, hk9e, hk10e]

theorem uuid_readFrom_take (u0 u : UUID) (hw : u.WF) (R : List Nat) (m : Nat)
    (hm : 16 ≤ m) :
    UUID.readFrom u0 (buf ((u.marshalBinary ++ R).take m)) =
      ⟨u, 16, buf (R.take (m - 16)), none⟩ := by
  obtain ⟨h1, h2, h3, h4, h5, h6, h7⟩ := hw
  have um : u.marshalBinary ++ R =
      beBytes 4 u.TimeLow ++ (beBytes 2 u.TimeMid ++ (beBytes 2 u.TimeHiAndVersion ++
        ([u.ClockSeqHiAndRes] ++ ([u.ClockSeqLow] ++ (u.Node ++ R))))) := by
    simp [UUID.marshalBinary, List.append_assoc]
  rw [um]
  unfold UUID.readFrom
  rw [readFull_take 4 _ _ m (beBytes_length 4 _) (by omega) (by omega)]
  dsimp only
  rw [readFull_take 2 _ _ (m - 4) (beBytes_length 2 _) (by omega) (by omega)]
  dsimp only
  rw [readFull_take 2 _ _ (m - 4 - 2) (beBytes_length 2 _) (by omega) (by omega)]
  dsimp only
  rw [readFull_take 1 _ _ (m - 4 - 2 - 2) (by simp) (by omega) (by omega)]
  dsimp only
  rw [readFull_take 1 _ _ (m - 4 - 2 - 2 - 1) (by simp) (by omega) (by omega)]
  dsimp only
  rw [readOnce_take 6 _ _ (m - 4 - 2 - 2 - 1 - 1) h6 (by omega) (by omega)]
  dsimp only
  rw [if_pos h6]
  have harr : m - 4 - 2 - 2 - 1 - 1 - 6 = m - 16 := by omega
  rw [harr]
  simp [beNat_beBytes 4 u.TimeLow (lt32 h1), beNat_beBytes 2 u.TimeMid (lt16 h2),
    beNat_beBytes 2 u.TimeHiAndVersion (lt16 h3), beNat_single]

/-- The field-labeled error Event.ReadFrom raises when its source holds
only the first k bytes of a valid frame whose payload size is S. -/
def truncErr (S k : Nat) : DecodeErr :=
  if k = 0 then .field "node ID" .eof
  else if k < 2 then .field "node ID" .unexpectedEOF
  else if k = 2 then .field "time stamp" .eof
  else if k < 6 then .field "time stamp" .unexpectedEOF
  else if k = 6 then .field "size" .eof
  else if k < 8 then .field "size" .unexpectedEOF
  else if k < 24 then .wrap "UUID" (uuidTruncErr (k - 8))
  else if k = 24 then .field "payload" .eof
  else if k < 24 + S then .short "payload" (k - 24) S
  else if k = 24 + S then .field "protocol" .eof
  else if k < 26 + S then .field "protocol" .unexpectedEOF
  else if k = 26 + S then .field "submitter" .eof
  else if k < 30 + S then .field "submitter" .unexpectedEOF
  else if k = 30 + S then .field "checksum" .eof
  else .field "checksum" .unexpectedEOF

/-- C4: truncating a valid encoded frame at any point k makes decoding
fail with exactly the field-labeled error documented for the field whose
bytes run out: fixed-width big-endian fields report io.EOF at a field
boundary and unexpected-EOF mid-field under their label (UUID subfields
wrapped in the "reading UUID" label), while the 6-byte UUID node field and
the variable-length payload report "read X of Y bytes" for a nonempty
short read and a plain end-of-input signal when no byte of them exists. -/
theorem C4_truncation_errors (e : Event) (hw : e.WF) (hd : e.Derivable) (k : Nat)
    (hk : k < 34 + e.Size) :
    decodeErrOf (buf (e.MarshalBin.take k)) = some (some (truncErr e.Size k)) := by
  obtain ⟨w1, w2, w3, w4, w5, w6, w7, w8, w9⟩ := hw
  obtain ⟨u1h, u2h, u3h, u4h, u5h, u6h, u7h⟩ := id w4
  obtain ⟨d1, d2⟩ := hd
  have hPB : e.PayloadBytes ≠ [] := by
    intro hh
    rw [hh, show parsePayload [] = .error 1 from by decide] at d1
    cases d1
  have hS1 : 1 ≤ e.Size := by
    have := List.length_pos.mpr hPB
    omega
  have umlen : e.EventUUID.marshalBinary.length = 16 := by
    simp [UUID.marshalBinary, beBytes_length, u6h]
  have eF : e.MarshalBin = beBytes 2 e.NodeID ++ (beBytes 4 e.TimeStamp ++
      (beBytes 2 e.Size ++ (e.EventUUID.marshalBinary ++ (e.PayloadBytes ++
        (beBytes 2 e.Protocol ++ (beBytes 4 e.Submitter ++ beBytes 4 e.CheckSum)))))) := by
    simp [Event.MarshalBin, Event.marshalBinary, List.append_assoc]
  unfold decodeErrOf
  rw [eF]
  unfold Event.readFrom
  by_cases hc1 : k = 0
  · subst hc1
    simp only [List.take_zero]
    rw [buf_nil, readFull_nil 2 (by omega)]
    dsimp only
    simp [truncErr]
  by_cases hc2 : k < 2
  · rw [take_app_of_ge _ _ _ (by simp [beBytes_length]; omega),
      buf_of_ne _ (take_ne_nil _ _ hc1 (beBytes_ne_nil 2 _ (by omega))),
      readFull_short 2 _ (take_ne_nil _ _ hc1 (beBytes_ne_nil 2 _ (by omega)))
        (by simp [List.length_take, beBytes_length]; omega)]
    dsimp only
    simp [truncErr, hc1, hc2]
  rw [readFull_take 2 _ _ k (beBytes_length 2 _) (by omega) (by omega)]
  dsimp only
  by_cases hc3 : k = 2
  · subst hc3
    simp only [show (2 : Nat) - 2 = 0 from rfl, List.take_zero]
    rw [buf_nil, readFull_nil 4 (by omega)]
    dsimp only
    simp [truncErr]
  by_cases hc4 : k < 6
  · rw [take_app_of_ge _ _ _ (by simp [beBytes_length]; omega),
      buf_of_ne _ (take_ne_nil _ _ (by omega) (beBytes_ne_nil 4 _ (by omega))),
      readFull_short 4 _ (take_ne_nil _ _ (by omega) (beBytes_ne_nil 4 _ (by omega)))
        (by simp [List.length_take, beBytes_length]; omega)]
    dsimp only
    simp [truncErr, hc1, hc2, hc3, hc4]
  rw [readFull_take 4 _ _ (k - 2) (beBytes_length 4 _) (by omega) (by omega)]
  dsimp only
  by_cases hc5 : k = 6
  · subst hc5
    simp only [show (6 : Nat) - 2 - 4 = 0 from rfl, List.take_zero]
    rw [buf_nil, readFull_nil 2 (by omega)]
    dsimp only
    simp [truncErr]
  by_cases hc6 : k < 8
  · rw [take_app_of_ge _ _ _ (by simp [beBytes_length]; omega),
      buf_of_ne _ (take_ne_nil _ _ (by omega) (beBytes_ne_nil 2 _ (by omega))),
      readFull_short 2 _ (take_ne_nil _ _ (by omega) (beBytes_ne_nil 2 _ (by omega)))
        (by simp [List.length_take, beBytes_length]; omega)]
    dsimp only
    simp [truncErr, hc1, hc2, hc3, hc4, hc5, hc6]
  rw [readFull_take 2 _ _ (k - 2 - 4) (beBytes_length 2 _) (by omega) (by omega)]
  dsimp only
  by_cases hc7 : k < 24
  · rw [take_app_of_ge _ _ _ (by rw [umlen]; omega)]
    rw [uuid_readFrom_trunc _ e.EventUUID w4 (k - 2 - 4 - 2) (by omega)]
    dsimp only
    rw [show k - 2 - 4 - 2 = k - 8 from by omega]
    simp [truncErr, hc1, hc2, hc3, hc4, hc5, hc6, hc7]
  rw [uuid_readFrom_take _ e.EventUUID w4 _ (k - 2 - 4 - 2) (by omega)]
  dsimp only
  rw [beNat_beBytes 2 e.Size (lt16 w3)]
  rw [show k - 2 - 4 - 2 - 16 = k - 24 from by omega]
  by_cases hc8 : k = 24
  · subst hc8
    simp only [show (24 : Nat) - 24 = 0 from rfl, List.take_zero]
    rw [buf_nil, readOnce_nil e.Size (by omega)]
    dsimp only
    simp [truncErr]
  by_cases hc9 : k < 24 + e.Size
  · rw [take_app_of_ge _ _ _ (by omega),
      buf_of_ne _ (take_ne_nil _ _ (by omega) hPB),
      readOnce_under e.Size _ (by simp [List.length_take]; omega)]
    dsimp only
    rw [if_neg (by simp [List.length_take]; omega)]
    have hlen : (e.PayloadBytes.take (k - 24)).length = k - 24 := by
      simp [List.length_take]
      omega
    rw [hlen]
    dsimp only
    simp [truncErr, hc1, hc2, hc3, hc4, hc5, hc6, hc7, hc8, hc9]
  rw [readOnce_take e.Size _ _ (k - 24) w5 (by omega) (by omega)]
  dsimp only
  rw [if_pos w5, d1]
  dsimp only
  by_cases hc10 : k = 24 + e.Size
  · rw [show k - 24 - e.Size = 0 from by omega]
    simp only [List.take_zero]
    rw [buf_nil, readFull_nil 2 (by omega)]
    dsimp only
    have ht : truncErr e.Size k = DecodeErr.field "protocol" ByteErr.eof := by
      unfold truncErr
      split_ifs <;> first | rfl | omega
    rw [ht]
  by_cases hc11 : k < 26 + e.Size
  · rw [take_app_of_ge _ _ _ (by simp [beBytes_length]; omega),
      buf_of_ne _ (take_ne_nil _ _ (by omega) (beBytes_ne_nil 2 _ (by omega))),
      readFull_short 2 _ (take_ne_nil _ _ (by omega) (beBytes_ne_nil 2 _ (by omega)))
        (by simp [List.length_take, beBytes_length]; omega)]
    dsimp only
    simp [truncErr, hc1, hc2, hc3, hc4, hc5, hc6, hc7, hc8, hc9, hc10, hc11]
  rw [readFull_take 2 _ _ (k - 24 - e.Size) (beBytes_length 2 _) (by omega) (by omega)]
  dsimp only
  by_cases hc12 : k = 26 + e.Size
  · rw [show k - 24 - e.Size - 2 = 0 from by omega]
    simp only [List.take_zero]
    rw [buf_nil, readFull_nil 4 (by omega)]
    dsimp only
    have ht : truncErr e.Size k = DecodeErr.field "submitter" ByteErr.eof := by
      unfold truncErr
      split_ifs <;> first | rfl | omega
    rw [ht]
  by_cases hc13 : k < 30 + e.Size
  · rw [take_app_of_ge _ _ _ (by simp [beBytes_length]; omega),
      buf_of_ne _ (take_ne_nil _ _ (by omega) (beBytes_ne_nil 4 _ (by omega))),
      readFull_short 4 _ (take_ne_nil _ _ (by omega) (beBytes_ne_nil 4 _ (by omega)))
        (by simp [List.length_take, beBytes_length]; omega)]
    dsimp only
    simp [truncErr, hc1, hc2, hc3, hc4, hc5, hc6, hc7, hc8, hc9, hc10, hc11, hc12, hc13]
  rw [readFull_take 4 _ _ (k - 24 - e.Size - 2) (beBytes_length 4 _) (by omega) (by omega)]
  dsimp only
  by_cases hc14 : k = 30 + e.Size
  · rw [show k - 24 - e.Size - 2 - 4 = 0 from by omega]
    simp only [List.take_zero]
    rw [buf_nil, readFull_nil 4 (by omega)]
    dsimp only
    have ht : truncErr e.Size k = DecodeErr.field "checksum" ByteErr.eof := by
      unfold truncErr
      split_ifs <;> first | rfl | omega
    rw [ht]
  · rw [buf_of_ne _ (take_ne_nil _ _ (by omega) (beBytes_ne_nil 4 _ (by omega))),
      readFull_short 4 _ (take_ne_nil _ _ (by omega) (beBytes_ne_nil 4 _ (by omega)))
        (by simp [List.length_take, beBytes_length]; omega)]
    dsimp only
    simp [truncErr, hc1, hc2, hc3, hc4, hc5, hc6, hc7, hc8, hc9, hc10, hc11, hc12, hc13, hc14]

theorem C4_truncation_errors_witness :
    decodeErrOf (buf (witEvent.MarshalBin.take 20)) =
      some (some (.wrap "UUID" (.short "node" 2 6))) := by
  rw [C4_truncation_errors witEvent (by decide) (by decide) 20 (by decide)]
  decide
